import Mathlib

/-!
Shallow embedding of the core pipeline of `mcv-momentum-data`
(`.github/scripts/utils_common.py`): retry with exponential backoff,
bounded-concurrency fan-out, date-keyed upsert into an ordered candle
series, and the trailing-window indicator calculator (Wilder RSI, EMA,
volume ratios).

Modelling conventions:
* Python floats are modelled as `ℚ` (the claims under study are about the
  arithmetic structure of the code, not binary floating point).
* A Python value that may be `None` is an `Option ℚ`; arithmetic on `None`
  raises `TypeError`, modelled with `Except PyErr`.
* `round(x, n)` is Python 3 rounding: half-to-even at ties, here
  `round_half_even (x * 10^n) / 10^n`.
* Stateful code (the thread pool, the retry loop's sleeps) is embedded as
  explicit traces: the completion order of futures is an arbitrary
  permutation of the submitted items, and the retry wrapper records the
  list of sleep durations it performs.
-/

namespace MCV

/-- Python runtime errors that the embedded code can raise. -/
inductive PyErr : Type where
  | typeError : PyErr
  | indexError : PyErr
deriving DecidableEq, Repr

/-- Python 3 `round` to an integer: round half to even (banker's rounding). -/
def round_half_even (x : ℚ) : ℤ :=
  if x - ⌊x⌋ < 1 / 2 then ⌊x⌋
  else if 1 / 2 < x - ⌊x⌋ then ⌊x⌋ + 1
  else if ⌊x⌋ % 2 = 0 then ⌊x⌋ else ⌊x⌋ + 1

/-- Python `round(x, ndigits)` on our rational model of floats. -/
def pyRound (x : ℚ) (ndigits : ℕ) : ℚ :=
  (round_half_even (x * 10 ^ ndigits) : ℚ) / 10 ^ ndigits

/-- One trading-day observation for one instrument (the canonical candle
shape of the spec: raw OHLCV fields plus the derived indicator fields,
all nullable). `open` is a Lean keyword, hence `open_`. -/
structure Candle : Type where
  date : String
  open_ : Option ℚ
  high : Option ℚ
  low : Option ℚ
  close : Option ℚ
  volume : Option ℚ
  rsi : Option ℚ
  ema20_diff : Option ℚ
  ema50_diff : Option ℚ
  ema120_diff : Option ℚ
  ema200_diff : Option ℚ
  volume_ratio_90d : Option ℚ
  volume_ratio_alltime : Option ℚ
deriving DecidableEq, Repr

/-- The computed indicator dictionary returned by
`calculate_and_update_indicators`. -/
structure Indicators : Type where
  rsi : Option ℚ
  ema20_diff : Option ℚ
  ema50_diff : Option ℚ
  ema120_diff : Option ℚ
  ema200_diff : Option ℚ
  volume_ratio_90d : Option ℚ
  volume_ratio_alltime : Option ℚ
deriving DecidableEq, Repr

/-! ## History merger (`upsert_history`)

The Python function scans `existing_history` for the first record whose
`date` equals the new record's, overwrites it in place and returns;
otherwise it appends the new record at the end. -/

/-- Translation of `upsert_history(existing_history, new_record)`. -/
def upsert_history (existing_history : List Candle) (new_record : Candle) :
    List Candle :=
  match existing_history with
  | [] => [new_record]
  | record :: rest =>
      if record.date = new_record.date then
        new_record :: rest
      else
        record :: upsert_history rest new_record

/-! ## RSI (`calculate_rsi`, Wilder smoothing)

The Python loops walk consecutive index pairs `(i - 1, i)`; we embed the
price list's consecutive pairs as `prices.zip prices.tail`, with the
change of a pair `(prev, cur)` being `cur - prev`. -/

/-- First loop of `calculate_rsi`: build the `gains` and `losses` lists
from the first `period` one-step changes. -/
def gainsLosses : List (ℚ × ℚ) → List ℚ × List ℚ
  | [] => ([], [])
  | (prev, cur) :: rest =>
      let change := cur - prev
      let rec_result := gainsLosses rest
      (max change 0 :: rec_result.1, |min change 0| :: rec_result.2)

/-- Second loop of `calculate_rsi`: Wilder smoothing
`avg = (avg * (period - 1) + value) / period` over the remaining
one-step changes, updating both running averages. -/
def wilderLoop (period : ℚ) (avg_gain avg_loss : ℚ) :
    List (ℚ × ℚ) → ℚ × ℚ
  | [] => (avg_gain, avg_loss)
  | (prev, cur) :: rest =>
      let change := cur - prev
      wilderLoop period
        ((avg_gain * (period - 1) + max change 0) / period)
        ((avg_loss * (period - 1) + |min change 0|) / period)
        rest

/-- Translation of `calculate_rsi(prices, period)` on non-null prices. -/
def calculate_rsi (prices : List ℚ) (period : ℕ) : Option ℚ :=
  if prices.length < period + 1 then none
  else
    let pairs := prices.zip prices.tail
    let gl := gainsLosses (pairs.take period)
    let avg_gain := gl.1.sum / period
    let avg_loss := gl.2.sum / period
    let avgs := wilderLoop period avg_gain avg_loss (pairs.drop period)
    if avgs.2 = 0 then some 100
    else some (pyRound (100 - 100 / (1 + avgs.1 / avgs.2)) 2)

/-! ## EMA (`calculate_ema`) -/

/-- Translation of `calculate_ema(prices, period)` on non-null prices:
seed is the first price, then `ema = price * k + ema * (1 - k)` with
`k = 2 / (period + 1)`, finally rounded to 8 decimals. -/
def calculate_ema (prices : List ℚ) (period : ℕ) : Option ℚ :=
  match prices with
  | [] => none
  | p :: rest =>
      let k : ℚ := 2 / ((period : ℚ) + 1)
      some (pyRound (rest.foldl (fun ema price => price * k + ema * (1 - k)) p) 8)

/-! ## Canonical components of the RSI computation (proof support) -/

/-- The Wilder smoothing fold `avg = (avg * (p - 1) + v) / p`. -/
def wilderFold (p seed : ℚ) (l : List ℚ) : ℚ :=
  l.foldl (fun avg v => (avg * (p - 1) + v) / p) seed

/-- All one-step gains `max(change, 0)` of a price list. -/
def gainList (prices : List ℚ) : List ℚ :=
  (prices.zip prices.tail).map (fun pc => max (pc.2 - pc.1) 0)

/-- All one-step loss magnitudes `abs(min(change, 0))` of a price list. -/
def lossList (prices : List ℚ) : List ℚ :=
  (prices.zip prices.tail).map (fun pc => |min (pc.2 - pc.1) 0|)

/-- The final Wilder average gain: simple-mean seed over the first
`period` gains, then Wilder smoothing over the rest. -/
def finalGain (prices : List ℚ) (period : ℕ) : ℚ :=
  wilderFold period (((gainList prices).take period).sum / period)
    ((gainList prices).drop period)

/-- The final Wilder average loss. -/
def finalLoss (prices : List ℚ) (period : ℕ) : ℚ :=
  wilderFold period (((lossList prices).take period).sum / period)
    ((lossList prices).drop period)

/-- The spec's own wording of Wilder RSI (section 4.1 of the design
document), written independently of the source loops: one-step
differences of the price list, gains and losses separated as mapped
lists, simple-mean seed over the first `period` differences, Wilder
smoothing folded over the remaining differences, `100.0` when the final
average loss is zero, else `100 - 100/(1 + RS)` rounded to 2 decimals,
and no value for fewer than `period + 1` prices.  To be compared with
`calculate_rsi`, the source translation. -/
def rsi_spec (prices : List ℚ) (period : ℕ) : Option ℚ :=
  if prices.length < period + 1 then none
  else
    let diffs := List.zipWith (fun cur prev => cur - prev) prices.tail prices
    let gains := diffs.map (fun d => max d 0)
    let losses := diffs.map (fun d => |min d 0|)
    let seed_gain := (gains.take period).sum / period
    let seed_loss := (losses.take period).sum / period
    let avg_gain :=
      (gains.drop period).foldl (fun avg v => (avg * ((period : ℚ) - 1) + v) / period) seed_gain
    let avg_loss :=
      (losses.drop period).foldl (fun avg v => (avg * ((period : ℚ) - 1) + v) / period) seed_loss
    if avg_loss = 0 then some 100
    else some (pyRound (100 - 100 / (1 + avg_gain / avg_loss)) 2)

/-! ## Python-value arithmetic on possibly-null floats

`calculate_and_update_indicators` extracts `closes` as raw values of the
records, which may be `None` (null in the persisted JSON).  The numeric
code then raises `TypeError` the moment it combines `None` with a float.
The `…Exc` functions below are the same loops as above, lifted to
`Option ℚ` operands with `Except PyErr` results. -/

/-- Python `b - a` where either operand may be `None`. -/
def psub (b a : Option ℚ) : Except PyErr ℚ :=
  match b, a with
  | some x, some y => .ok (x - y)
  | _, _ => .error .typeError

/-- One EMA iteration `price * k + ema * (1 - k)` on Python values:
raises `TypeError` if either the accumulator or the price is `None`. -/
def pyEmaStep (k : ℚ) (ema price : Option ℚ) : Except PyErr ℚ :=
  match ema, price with
  | some e, some p => .ok (p * k + e * (1 - k))
  | _, _ => .error .typeError

/-- The EMA accumulation loop over the remaining prices. -/
def emaLoop (k : ℚ) (ema : Option ℚ) : List (Option ℚ) → Except PyErr (Option ℚ)
  | [] => .ok ema
  | price :: rest =>
      match pyEmaStep k ema price with
      | .ok v => emaLoop k (some v) rest
      | .error e => .error e

/-- `calculate_ema` applied to the raw (possibly-null) close values, as
done inside `calculate_and_update_indicators`.  The final `round(ema, 8)`
raises `TypeError` when the accumulator is still `None` (single-element
window with a null close). -/
def emaExc (prices : List (Option ℚ)) (period : ℕ) : Except PyErr (Option ℚ) :=
  match prices with
  | [] => .ok none
  | p :: rest =>
      let k : ℚ := 2 / ((period : ℚ) + 1)
      match emaLoop k p rest with
      | .error e => .error e
      | .ok none => .error .typeError
      | .ok (some v) => .ok (some (pyRound v 8))

/-- First RSI loop on Python values. -/
def gainsLossesExc : List (Option ℚ × Option ℚ) → Except PyErr (List ℚ × List ℚ)
  | [] => .ok ([], [])
  | (prev, cur) :: rest =>
      match psub cur prev with
      | .error e => .error e
      | .ok change =>
          match gainsLossesExc rest with
          | .error e => .error e
          | .ok gl => .ok (max change 0 :: gl.1, |min change 0| :: gl.2)

/-- Wilder smoothing loop on Python values. -/
def wilderLoopExc (period : ℚ) (avg_gain avg_loss : ℚ) :
    List (Option ℚ × Option ℚ) → Except PyErr (ℚ × ℚ)
  | [] => .ok (avg_gain, avg_loss)
  | (prev, cur) :: rest =>
      match psub cur prev with
      | .error e => .error e
      | .ok change =>
          wilderLoopExc period
            ((avg_gain * (period - 1) + max change 0) / period)
            ((avg_loss * (period - 1) + |min change 0|) / period)
            rest

/-- `calculate_rsi` applied to the raw (possibly-null) close values. -/
def rsiExc (prices : List (Option ℚ)) (period : ℕ) : Except PyErr (Option ℚ) :=
  if prices.length < period + 1 then .ok none
  else
    let pairs := prices.zip prices.tail
    match gainsLossesExc (pairs.take period) with
    | .error e => .error e
    | .ok gl =>
        let avg_gain := gl.1.sum / period
        let avg_loss := gl.2.sum / period
        match wilderLoopExc period avg_gain avg_loss (pairs.drop period) with
        | .error e => .error e
        | .ok avgs =>
            if avgs.2 = 0 then .ok (some 100)
            else .ok (some (pyRound (100 - 100 / (1 + avgs.1 / avgs.2)) 2))

/-! ## `calculate_and_update_indicators` -/

/-- Python truthiness of a possibly-null float: `None` and `0.0` are falsy. -/
def truthy (v : Option ℚ) : Bool :=
  match v with
  | some x => x != 0
  | none => false

/-- Python `l[-n:]`: the trailing `n` elements (the whole list when it is
shorter than `n`). -/
def lastN (n : ℕ) (l : List α) : List α := l.drop (l.length - n)

/-- Python `max` over a list, only ever applied to non-empty lists in the
source (`max([])` would raise; every call site is guarded by a
non-emptiness check, so the `[]` branch is arbitrary). -/
def listMax : List ℚ → ℚ
  | [] => 0
  | x :: xs => xs.foldl max x

/-- The EMA-deviation expression
`round(((current_price - ema) / ema) * 100, 2) if ema else None`:
the guard is Python truthiness of `ema`; when it holds, a `None`
current price raises `TypeError` in the subtraction. -/
def emaDiffExc (current_price ema : Option ℚ) : Except PyErr (Option ℚ) :=
  if truthy ema then
    match current_price, ema with
    | some cp, some e => .ok (some (pyRound ((cp - e) / e * 100) 2))
    | _, _ => .error .typeError
  else .ok none

/-- The volume-ratio block: filters truthy volumes upstream; here
`volumes` is already that filtered list.  `volumes[-1]` is only read
under the `if volumes:` guard, modelled by matching on `getLast?`. -/
def volumeRatios (volumes : List ℚ) : Option ℚ × Option ℚ :=
  match volumes.getLast? with
  | none => (none, none)
  | some current_volume =>
      let vol_max_90d := if 90 ≤ volumes.length then listMax (lastN 90 volumes) else listMax volumes
      let vol_ratio_90d :=
        if vol_max_90d ≠ 0 then some (pyRound (current_volume / vol_max_90d) 3) else none
      let vol_max_alltime := listMax volumes
      let vol_ratio_alltime :=
        if vol_max_alltime ≠ 0 then some (pyRound (current_volume / vol_max_alltime) 3) else none
      (vol_ratio_90d, vol_ratio_alltime)

/-- The value of one EMA-deviation field on an all-non-null close window
with current price `cp` (proof support: what `emaDiffExc` computes once
no `TypeError` can occur). -/
def pureDiff (cp : ℚ) (vals : List ℚ) (period : ℕ) : Option ℚ :=
  match calculate_ema vals period with
  | some e => if e = 0 then none else some (pyRound ((cp - e) / e * 100) 2)
  | none => none

/-- The truthy-filtered volume list
`[h[volume_key] for h in recent_data if h.get(volume_key)]`. -/
def volumesOf (recent_data : List Candle) : List ℚ :=
  recent_data.filterMap (fun h => if truthy h.volume then h.volume else none)

/-- Translation of `calculate_and_update_indicators(history)`: indicator
computation over the trailing 250 records.  `closes[-1]` raises
`IndexError` on an empty window; arithmetic on null closes raises
`TypeError` (see the `…Exc` helpers). -/
def calculate_and_update_indicators (history : List Candle) :
    Except PyErr Indicators := do
  let recent_data := lastN 250 history
  let closes := recent_data.map Candle.close
  let volumes := volumesOf recent_data
  let rsi ← rsiExc closes 14
  let ema20 ← emaExc closes 20
  let ema50 ← emaExc closes 50
  let ema120 ← emaExc closes 120
  let ema200 ← emaExc closes 200
  let current_price ←
    match closes.getLast? with
    | some c => Except.ok c
    | none => Except.error PyErr.indexError
  let ema20_diff ← emaDiffExc current_price ema20
  let ema50_diff ← emaDiffExc current_price ema50
  let ema120_diff ← emaDiffExc current_price ema120
  let ema200_diff ← emaDiffExc current_price ema200
  let ratios := volumeRatios volumes
  return ⟨rsi, ema20_diff, ema50_diff, ema120_diff, ema200_diff, ratios.1, ratios.2⟩

/-- State-passing form of the same function: the Python callee receives
the `history` list object and could in principle mutate it; the source
only ever reads it (slicing and comprehensions), so the translation
returns the history it was handed alongside the computed indicators. -/
def calculate_and_update_indicators_state (history : List Candle) :
    List Candle × Except PyErr Indicators :=
  (history, calculate_and_update_indicators history)

/-! ## Retry policy (`retry_on_failure`)

A wrapped call is modelled by the outcome of each attempt:
`f : ℕ → Except E A` gives attempt `i`'s result.  The trace records the
final outcome (`Except.ok none` models the unreachable `return None`
after the loop, hit only when `max_retries = 0`), the sleeps performed
(`base_delay * 2 ^ attempt` after each non-final failure), and the number
of calls made. -/

structure RetryTrace (E A : Type) : Type where
  result : Except E (Option A)
  sleeps : List ℚ
  calls : ℕ
deriving Repr

/-- One iteration of the retry loop, given this attempt's outcome and the
trace of the remaining iterations: a success returns the value at once;
a failure on the last attempt re-raises; otherwise the wrapper sleeps
`base_delay * 2 ^ attempt` and continues.  (`rest` is ignored on the
branches that leave the loop, so passing it eagerly does not change the
trace.) -/
def retryStep {E A : Type} (max_retries attempt : ℕ) (base_delay : ℚ)
    (res : Except E A) (rest : RetryTrace E A) : RetryTrace E A :=
  match res with
  | .ok a => ⟨.ok (some a), [], 1⟩
  | .error e =>
      if attempt = max_retries - 1 then ⟨.error e, [], 1⟩
      else ⟨rest.result, base_delay * 2 ^ attempt :: rest.sleeps, rest.calls + 1⟩

/-- The `for attempt in range(max_retries)` loop body, from attempt
number `attempt` on. -/
def retryLoop {E A : Type} (f : ℕ → Except E A) (max_retries : ℕ) (base_delay : ℚ)
    (attempt : ℕ) : RetryTrace E A :=
  if _h : attempt < max_retries then
    retryStep max_retries attempt base_delay (f attempt)
      (retryLoop f max_retries base_delay (attempt + 1))
  else ⟨.ok none, [], 0⟩
termination_by max_retries - attempt

/-- Translation of `retry_on_failure(max_retries, base_delay)` applied to
a call whose per-attempt outcomes are `f`. -/
def retry_on_failure {E A : Type} (f : ℕ → Except E A) (max_retries : ℕ)
    (base_delay : ℚ) : RetryTrace E A :=
  retryLoop f max_retries base_delay 0

/-! ## Concurrent task runner (`parallel_process`)

Each submitted item's future is the application `f item`, which either
raises (`Except.error`), returns `None`, or returns a value.
`as_completed` yields the futures in an arbitrary completion order,
modelled by a caller-supplied permutation of the submitted items.  The
loop body appends `future.result()` to `results` when it neither raises
nor is `None`. -/

/-- Translation of the collection loop of `parallel_process`: fold over
the futures in completion order. -/
def parallel_process {α β : Type} (f : α → Except PyErr (Option β))
    (completionOrder : List α) : List β :=
  completionOrder.foldl
    (fun results fut =>
      match f fut with
      | .ok (some r) => results ++ [r]
      | .ok none => results
      | .error _ => results)
    []

/-- The successful non-null outcome of one item, if any. -/
def itemResult {α β : Type} (f : α → Except PyErr (Option β)) (it : α) : Option β :=
  match f it with
  | .ok (some r) => some r
  | _ => none

/-- Whether an item's application raises. -/
def itemRaises {α β : Type} (f : α → Except PyErr (Option β)) (it : α) : Bool :=
  match f it with
  | .error _ => true
  | .ok _ => false

/-! ## Concrete fixtures used by witnesses and counterexamples -/

/-- A bare candle carrying only a date, a close and a volume. -/
def mkCandle (d : String) (c v : Option ℚ) : Candle :=
  ⟨d, none, none, none, c, v, none, none, none, none, none, none, none⟩

/-- A two-observation history: far fewer than 14 closes. -/
def twoDayHistory : List Candle :=
  [mkCandle "2024-01-01" (some 100) none, mkCandle "2024-01-02" (some 110) (some 5)]

/-! # Helper lemmas -/

theorem upsert_append_of_date_not_mem (S : List Candle) (c : Candle)
    (h : ∀ r ∈ S, r.date ≠ c.date) : upsert_history S c = S ++ [c] := by
  induction S with
  | nil => rfl
  | cons r rest ih =>
      simp only [upsert_history]
      rw [if_neg (h r (List.mem_cons_self r rest))]
      rw [ih (fun x hx => h x (List.mem_cons_of_mem r hx))]
      rfl

theorem upsert_getElem?_of_date_ne (S : List Candle) (c : Candle) :
    ∀ i (hi : i < S.length), S[i].date ≠ c.date →
      (upsert_history S c)[i]? = some S[i] := by
  induction S with
  | nil => intro i hi; exact absurd hi (Nat.not_lt_zero i)
  | cons r rest ih =>
      intro i hi hne
      by_cases h : r.date = c.date
      · simp only [upsert_history, if_pos h]
        match i with
        | 0 => exact absurd h (by simpa using hne)
        | j + 1 => simp
      · simp only [upsert_history, if_neg h]
        match i with
        | 0 => simp
        | j + 1 =>
            have hj : j < rest.length := Nat.lt_of_succ_lt_succ hi
            have := ih j hj (by simpa using hne)
            simpa using this

theorem upsert_set_of_date_eq (S : List Candle) (c : Candle)
    (hnd : (S.map Candle.date).Nodup) :
    ∀ i (hi : i < S.length), S[i].date = c.date →
      upsert_history S c = S.set i c := by
  induction S with
  | nil => intro i hi; exact absurd hi (Nat.not_lt_zero i)
  | cons r rest ih =>
      intro i hi hd
      match i with
      | 0 =>
          simp only [List.getElem_cons_zero] at hd
          simp [upsert_history, if_pos hd]
      | j + 1 =>
          have hj : j < rest.length := Nat.lt_of_succ_lt_succ hi
          simp only [List.getElem_cons_succ] at hd
          have hmem : c.date ∈ rest.map Candle.date := by
            rw [← hd]
            exact List.mem_map_of_mem Candle.date (rest.getElem_mem hj)
          have hr : r.date ≠ c.date := by
            intro hrc
            rw [List.map_cons, List.nodup_cons] at hnd
            exact hnd.1 (hrc ▸ hmem)
          simp only [upsert_history, if_neg hr, List.set_cons_succ]
          rw [ih (by rw [List.map_cons, List.nodup_cons] at hnd; exact hnd.2) j hj hd]

theorem upsert_countP_date (S : List Candle) (c : Candle)
    (hnd : (S.map Candle.date).Nodup) :
    (upsert_history S c).countP (fun r => r.date == c.date) = 1 := by
  induction S with
  | nil => simp [upsert_history, List.countP_cons]
  | cons r rest ih =>
      rw [List.map_cons, List.nodup_cons] at hnd
      by_cases h : r.date = c.date
      · simp only [upsert_history, if_pos h]
        rw [List.countP_cons]
        have hz : rest.countP (fun r => r.date == c.date) = 0 := by
          rw [List.countP_eq_zero]
          intro x hx hbeq
          rw [beq_iff_eq] at hbeq
          exact hnd.1 (h ▸ hbeq ▸ List.mem_map_of_mem Candle.date hx)
        simp [hz]
      · simp only [upsert_history, if_neg h]
        rw [List.countP_cons]
        have : (r.date == c.date) = false := by simpa using h
        simp [this, ih hnd.2]

/-! ## RSI lemmas -/

theorem gainsLosses_eq_map (l : List (ℚ × ℚ)) :
    gainsLosses l =
      (l.map (fun pc => max (pc.2 - pc.1) 0), l.map (fun pc => |min (pc.2 - pc.1) 0|)) := by
  induction l with
  | nil => rfl
  | cons p rest ih => cases p; simp [gainsLosses, ih]

theorem wilderLoop_eq_foldl (p : ℚ) (l : List (ℚ × ℚ)) : ∀ ag al : ℚ,
    wilderLoop p ag al l =
      ((l.map (fun pc => max (pc.2 - pc.1) 0)).foldl
          (fun avg v => (avg * (p - 1) + v) / p) ag,
        (l.map (fun pc => |min (pc.2 - pc.1) 0|)).foldl
          (fun avg v => (avg * (p - 1) + v) / p) al) := by
  induction l with
  | nil => intro ag al; rfl
  | cons x rest ih => intro ag al; cases x; simp [wilderLoop, ih]

theorem zip_tail_map_sub (prices : List ℚ) :
    (prices.zip prices.tail).map (fun pc => pc.2 - pc.1)
      = List.zipWith (fun cur prev => cur - prev) prices.tail prices := by
  induction prices with
  | nil => rfl
  | cons a rest ih =>
      cases rest with
      | nil => rfl
      | cons b rest2 =>
          simp only [List.tail_cons, List.zip_cons_cons, List.map_cons,
            List.zipWith_cons_cons]
          exact congrArg _ ih

theorem calculate_rsi_char (prices : List ℚ) (period : ℕ) :
    calculate_rsi prices period =
      if prices.length < period + 1 then none
      else if finalLoss prices period = 0 then some 100
      else some (pyRound
        (100 - 100 / (1 + finalGain prices period / finalLoss prices period)) 2) := by
  by_cases h : prices.length < period + 1
  · simp [calculate_rsi, h]
  · unfold calculate_rsi
    simp only [if_neg h]
    rw [gainsLosses_eq_map, wilderLoop_eq_foldl]
    simp only [finalGain, finalLoss, gainList, lossList, wilderFold,
      List.map_take, List.map_drop]

theorem rsi_spec_char (prices : List ℚ) (period : ℕ) :
    rsi_spec prices period =
      if prices.length < period + 1 then none
      else if finalLoss prices period = 0 then some 100
      else some (pyRound
        (100 - 100 / (1 + finalGain prices period / finalLoss prices period)) 2) := by
  by_cases h : prices.length < period + 1
  · simp [rsi_spec, h]
  · unfold rsi_spec
    simp only [if_neg h]
    rw [← zip_tail_map_sub, List.map_map, List.map_map]
    simp only [finalGain, finalLoss, gainList, lossList, wilderFold,
      List.map_take, List.map_drop, Function.comp_def]

theorem wilderFold_nonneg (p : ℚ) (hp : 1 ≤ p) :
    ∀ (l : List ℚ) (seed : ℚ), 0 ≤ seed → (∀ x ∈ l, 0 ≤ x) →
      0 ≤ wilderFold p seed l := by
  intro l
  induction l with
  | nil => intro seed hseed _; exact hseed
  | cons x rest ih =>
      intro seed hseed hl
      have hx : 0 ≤ x := hl x (List.mem_cons_self x rest)
      have hstep : 0 ≤ (seed * (p - 1) + x) / p :=
        div_nonneg (by nlinarith) (by linarith)
      have hrest := ih ((seed * (p - 1) + x) / p) hstep
        (fun y hy => hl y (List.mem_cons_of_mem x hy))
      simpa [wilderFold, List.foldl_cons] using hrest

theorem gainList_nonneg (prices : List ℚ) : ∀ x ∈ gainList prices, 0 ≤ x := by
  intro x hx
  obtain ⟨pc, _, rfl⟩ := List.mem_map.mp hx
  exact le_max_right _ 0

theorem lossList_nonneg (prices : List ℚ) : ∀ x ∈ lossList prices, 0 ≤ x := by
  intro x hx
  obtain ⟨pc, _, rfl⟩ := List.mem_map.mp hx
  exact abs_nonneg _

theorem finalGain_nonneg (prices : List ℚ) (period : ℕ) (hp : 1 ≤ period) :
    0 ≤ finalGain prices period := by
  refine wilderFold_nonneg _ (by exact_mod_cast hp) _ _ ?_
    (fun x hx => gainList_nonneg prices x (List.mem_of_mem_drop hx))
  refine div_nonneg (List.sum_nonneg ?_) (by positivity)
  exact fun x hx => gainList_nonneg prices x (List.mem_of_mem_take hx)

theorem finalLoss_nonneg (prices : List ℚ) (period : ℕ) (hp : 1 ≤ period) :
    0 ≤ finalLoss prices period := by
  refine wilderFold_nonneg _ (by exact_mod_cast hp) _ _ ?_
    (fun x hx => lossList_nonneg prices x (List.mem_of_mem_drop hx))
  refine div_nonneg (List.sum_nonneg ?_) (by positivity)
  exact fun x hx => lossList_nonneg prices x (List.mem_of_mem_take hx)

theorem round_half_even_nonneg (y : ℚ) (h0 : 0 ≤ y) : 0 ≤ round_half_even y := by
  have hf : (0 : ℤ) ≤ ⌊y⌋ := Int.floor_nonneg.mpr h0
  unfold round_half_even
  split_ifs <;> omega

theorem round_half_even_le (y : ℚ) (z : ℤ) (h : y < z) : round_half_even y ≤ z := by
  have hf : ⌊y⌋ < z := Int.floor_lt.mpr (by exact_mod_cast h)
  unfold round_half_even
  split_ifs <;> omega

theorem pyRound2_bounds (x : ℚ) (h0 : 0 ≤ x) (h1 : x < 100) :
    0 ≤ pyRound x 2 ∧ pyRound x 2 ≤ 100 := by
  have hy0 : 0 ≤ x * 10 ^ 2 := by positivity
  have hy1 : x * 10 ^ 2 < (10000 : ℤ) := by push_cast; nlinarith
  have hlo := round_half_even_nonneg _ hy0
  have hhi := round_half_even_le _ _ hy1
  unfold pyRound
  constructor
  · positivity
  · rw [div_le_iff₀ (by norm_num)]
    calc (round_half_even (x * 10 ^ 2) : ℚ) ≤ (10000 : ℚ) := by exact_mod_cast hhi
    _ = 100 * 10 ^ 2 := by norm_num

/-! ## Indicator-script lemmas -/

theorem ebind_ok {E A B : Type} (a : A) (f : A → Except E B) :
    (Except.ok a >>= f) = f a := rfl

theorem ebind_err {E A B : Type} (e : E) (f : A → Except E B) :
    (Except.error e >>= f) = Except.error e := rfl

theorem map_some_zip_tail (vals : List ℚ) :
    (vals.map some).zip (vals.map some).tail
      = (vals.zip vals.tail).map (Prod.map some some) := by
  rw [← List.map_tail, List.zip_map]

theorem gainsLossesExc_map_some (l : List (ℚ × ℚ)) :
    gainsLossesExc (l.map (Prod.map some some)) = .ok (gainsLosses l) := by
  induction l with
  | nil => rfl
  | cons x rest ih =>
      cases x with
      | mk a b => simp [gainsLossesExc, gainsLosses, psub, ih]

theorem wilderLoopExc_map_some (l : List (ℚ × ℚ)) : ∀ (p ag al : ℚ),
    wilderLoopExc p ag al (l.map (Prod.map some some))
      = .ok (wilderLoop p ag al l) := by
  induction l with
  | nil => intro p ag al; rfl
  | cons x rest ih =>
      intro p ag al
      cases x with
      | mk a b => simp [wilderLoopExc, wilderLoop, psub, ih]

theorem rsiExc_map_some (vals : List ℚ) (period : ℕ) :
    rsiExc (vals.map some) period = .ok (calculate_rsi vals period) := by
  unfold rsiExc calculate_rsi
  simp only [List.length_map]
  by_cases h : vals.length < period + 1
  · simp [h]
  · simp only [if_neg h, map_some_zip_tail, ← List.map_take, ← List.map_drop,
      gainsLossesExc_map_some, wilderLoopExc_map_some]
    split_ifs <;> rfl

theorem emaLoop_map_some (vs : List ℚ) : ∀ (k acc : ℚ),
    emaLoop k (some acc) (vs.map some)
      = .ok (some (vs.foldl (fun ema price => price * k + ema * (1 - k)) acc)) := by
  induction vs with
  | nil => intro k acc; rfl
  | cons v rest ih => intro k acc; simp [emaLoop, pyEmaStep, ih]

theorem emaExc_map_some (vals : List ℚ) (period : ℕ) :
    emaExc (vals.map some) period = .ok (calculate_ema vals period) := by
  cases vals with
  | nil => rfl
  | cons v rest => simp [emaExc, calculate_ema, emaLoop_map_some]

theorem emaLoop_mem_none (rest : List (Option ℚ)) : ∀ (k acc : ℚ),
    none ∈ rest → emaLoop k (some acc) rest = .error .typeError := by
  induction rest with
  | nil => intro k acc h; exact absurd h (List.not_mem_nil none)
  | cons price rs ih =>
      intro k acc h
      cases price with
      | none => rfl
      | some v =>
          have : none ∈ rs := by
            rcases List.mem_cons.mp h with h1 | h2
            · exact absurd h1.symm (Option.some_ne_none v)
            · exact h2
          simp [emaLoop, pyEmaStep, ih _ _ this]

theorem emaLoop_none_acc (rest : List (Option ℚ)) (k : ℚ) (hne : rest ≠ []) :
    emaLoop k none rest = .error .typeError := by
  cases rest with
  | nil => exact absurd rfl hne
  | cons price rs => cases price <;> rfl

theorem emaExc_err_of_mem_none (prices : List (Option ℚ)) (period : ℕ)
    (hmem : none ∈ prices) : emaExc prices period = .error .typeError := by
  cases prices with
  | nil => exact absurd hmem (List.not_mem_nil none)
  | cons p0 rest =>
      cases p0 with
      | none =>
          cases rest with
          | nil => rfl
          | cons r rs => simp [emaExc, emaLoop_none_acc (r :: rs) _ (by simp)]
      | some v =>
          have : none ∈ rest := by
            rcases List.mem_cons.mp hmem with h1 | h2
            · exact absurd h1.symm (Option.some_ne_none v)
            · exact h2
          simp [emaExc, emaLoop_mem_none rest _ _ this]

theorem psub_err_ty (b a : Option ℚ) (e : PyErr) (h : psub b a = .error e) :
    e = .typeError := by
  cases b <;> cases a <;> simp [psub] at h <;> exact h.symm

theorem gainsLossesExc_err (l : List (Option ℚ × Option ℚ)) :
    (∃ pr ∈ l, pr.1 = none ∨ pr.2 = none) →
      gainsLossesExc l = .error .typeError := by
  induction l with
  | nil => rintro ⟨pr, hmem, _⟩; exact absurd hmem (List.not_mem_nil pr)
  | cons x rest ih =>
      rintro ⟨pr, hmem, hbad⟩
      cases x with
      | mk a b =>
          rcases List.mem_cons.mp hmem with h1 | h2
          · subst h1
            have hps : psub b a = .error .typeError := by
              rcases hbad with h | h
              · simp only at h; subst h; cases b <;> rfl
              · simp only at h; subst h; cases a <;> rfl
            simp [gainsLossesExc, hps]
          · cases hps : psub b a with
            | error e =>
                rw [psub_err_ty b a e hps] at hps
                simp [gainsLossesExc, hps]
            | ok c => simp [gainsLossesExc, hps, ih ⟨pr, h2, hbad⟩]

theorem wilderLoopExc_err (l : List (Option ℚ × Option ℚ)) :
    ∀ (p ag al : ℚ), (∃ pr ∈ l, pr.1 = none ∨ pr.2 = none) →
      wilderLoopExc p ag al l = .error .typeError := by
  induction l with
  | nil =>
      rintro p ag al ⟨pr, hmem, _⟩
      exact absurd hmem (List.not_mem_nil pr)
  | cons x rest ih =>
      rintro p ag al ⟨pr, hmem, hbad⟩
      cases x with
      | mk a b =>
          rcases List.mem_cons.mp hmem with h1 | h2
          · subst h1
            have hps : psub b a = .error .typeError := by
              rcases hbad with h | h
              · simp only at h; subst h; cases b <;> rfl
              · simp only at h; subst h; cases a <;> rfl
            simp [wilderLoopExc, hps]
          · cases hps : psub b a with
            | error e =>
                rw [psub_err_ty b a e hps] at hps
                simp [wilderLoopExc, hps]
            | ok c => simp [wilderLoopExc, hps, ih _ _ _ ⟨pr, h2, hbad⟩]

theorem pairs_mem_none (prices : List (Option ℚ)) (hmem : none ∈ prices)
    (h2 : 2 ≤ prices.length) :
    ∃ pr ∈ prices.zip prices.tail, pr.1 = none ∨ pr.2 = none := by
  obtain ⟨i, hi, hip⟩ := List.getElem_of_mem hmem
  have hplen : (prices.zip prices.tail).length = prices.length - 1 := by
    rw [List.length_zip, List.length_tail]
    omega
  by_cases hlast : i + 1 < prices.length
  · have hib : i < (prices.zip prices.tail).length := by omega
    refine ⟨(prices.zip prices.tail)[i], List.getElem_mem hib, ?_⟩
    rw [List.getElem_zip]
    left
    simpa using hip
  · obtain ⟨j, rfl⟩ : ∃ j, i = j + 1 := ⟨i - 1, by omega⟩
    have hjb : j < (prices.zip prices.tail).length := by omega
    refine ⟨(prices.zip prices.tail)[j], List.getElem_mem hjb, ?_⟩
    rw [List.getElem_zip]
    right
    rw [List.getElem_tail]
    exact hip

theorem rsiExc_err_of_mem_none (prices : List (Option ℚ))
    (hmem : none ∈ prices) (hlen : ¬ prices.length < 15) :
    rsiExc prices 14 = .error .typeError := by
  obtain ⟨pr, hpr, hbad⟩ := pairs_mem_none prices hmem (by omega)
  rw [show prices.zip prices.tail
      = (prices.zip prices.tail).take 14 ++ (prices.zip prices.tail).drop 14
    from (List.take_append_drop 14 _).symm] at hpr
  unfold rsiExc
  rw [if_neg hlen]
  dsimp only
  rcases List.mem_append.mp hpr with htk | hdp
  · rw [gainsLossesExc_err _ ⟨pr, htk, hbad⟩]
  · cases hgl : gainsLossesExc ((prices.zip prices.tail).take 14) with
    | error e =>
        have : e = PyErr.typeError := by
          revert hgl
          generalize (prices.zip prices.tail).take 14 = l
          induction l with
          | nil => intro h; simp [gainsLossesExc] at h
          | cons x rest ih =>
              intro h
              cases x with
              | mk a b =>
                  cases hps : psub b a with
                  | error e' =>
                      rw [gainsLossesExc, hps] at h
                      simp at h
                      rw [← h]
                      exact psub_err_ty b a e' hps
                  | ok c =>
                      rw [gainsLossesExc, hps] at h
                      cases hrest : gainsLossesExc rest with
                      | error e'' =>
                          rw [hrest] at h
                          simp at h
                          subst h
                          exact ih hrest
                      | ok gl => rw [hrest] at h; simp at h
        subst this
        rfl
    | ok gl =>
        dsimp only
        rw [wilderLoopExc_err _ _ _ _ ⟨pr, hdp, hbad⟩]

theorem emaDiffExc_some_some (cp e : ℚ) :
    emaDiffExc (some cp) (some e)
      = .ok (if e = 0 then none else some (pyRound ((cp - e) / e * 100) 2)) := by
  by_cases he : e = 0 <;> simp [emaDiffExc, truthy, he]

theorem emaDiffExc_pureDiff (cp : ℚ) (vals : List ℚ) (p : ℕ) (hne : vals ≠ []) :
    emaDiffExc (some cp) (calculate_ema vals p) = .ok (pureDiff cp vals p) := by
  cases vals with
  | nil => exact absurd rfl hne
  | cons v rest =>
      obtain ⟨e, he⟩ : ∃ e, calculate_ema (v :: rest) p = some e := ⟨_, rfl⟩
      simp [pureDiff, he, emaDiffExc_some_some]

theorem map_some_getLast? (vals : List ℚ) :
    (vals.map some).getLast? = vals.getLast?.map some :=
  List.getLast?_map _ _

theorem calc_ok_allsome (history : List Candle) (vals : List ℚ) (cp : ℚ)
    (hcl : (lastN 250 history).map Candle.close = vals.map some)
    (hlast : vals.getLast? = some cp) :
    calculate_and_update_indicators history = .ok
      ⟨calculate_rsi vals 14, pureDiff cp vals 20, pureDiff cp vals 50,
        pureDiff cp vals 120, pureDiff cp vals 200,
        (volumeRatios (volumesOf (lastN 250 history))).1,
        (volumeRatios (volumesOf (lastN 250 history))).2⟩ := by
  have hne : vals ≠ [] := by
    intro h
    rw [h] at hlast
    simp at hlast
  unfold calculate_and_update_indicators
  dsimp only
  rw [hcl, rsiExc_map_some]
  simp only [emaExc_map_some]
  rw [map_some_getLast?, hlast]
  rw [show Option.map some (some cp) = some (some cp) from rfl]
  simp only [ebind_ok]
  rw [emaDiffExc_pureDiff cp vals 20 hne, emaDiffExc_pureDiff cp vals 50 hne,
    emaDiffExc_pureDiff cp vals 120 hne, emaDiffExc_pureDiff cp vals 200 hne]
  simp only [ebind_ok]
  rfl

theorem lastN_ne_nil (n : ℕ) (hn : 0 < n) (l : List Candle) (hl : l ≠ []) :
    lastN n l ≠ [] := by
  unfold lastN
  have hlen : 0 < l.length := List.length_pos.mpr hl
  intro h
  have hh := congrArg List.length h
  rw [List.length_drop] at hh
  simp at hh
  omega

theorem exists_map_some (l : List (Option ℚ)) (h : ∀ x ∈ l, x ≠ none) :
    ∃ vals : List ℚ, l = vals.map some := by
  induction l with
  | nil => exact ⟨[], rfl⟩
  | cons x rest ih =>
      obtain ⟨vals, hv⟩ := ih (fun y hy => h y (List.mem_cons_of_mem x hy))
      cases x with
      | none => exact absurd rfl (h none (List.mem_cons_self _ _))
      | some v => exact ⟨v :: vals, by rw [List.map_cons, hv]⟩

theorem calc_err_of_none (history : List Candle)
    (hmem : none ∈ (lastN 250 history).map Candle.close) :
    calculate_and_update_indicators history = .error PyErr.typeError := by
  unfold calculate_and_update_indicators
  dsimp only
  generalize hg : (lastN 250 history).map Candle.close = closes
  rw [hg] at hmem
  by_cases hlen : closes.length < 15
  · have hrsi : rsiExc closes 14 = .ok none := by
      unfold rsiExc
      rw [if_pos (by omega)]
    rw [hrsi]
    simp only [ebind_ok]
    rw [emaExc_err_of_mem_none closes 20 hmem]
    rfl
  · rw [rsiExc_err_of_mem_none closes hmem hlen]
    rfl

theorem calculate_rsi_none_iff (vals : List ℚ) :
    calculate_rsi vals 14 = none ↔ vals.length < 15 := by
  rw [calculate_rsi_char]
  split_ifs with h1 h2 <;> simp <;> omega

theorem pureDiff_none_iff (cp : ℚ) (vals : List ℚ) (p : ℕ) (hne : vals ≠ []) :
    pureDiff cp vals p = none ↔ calculate_ema vals p = some 0 := by
  cases vals with
  | nil => exact absurd rfl hne
  | cons v rest =>
      obtain ⟨e, he⟩ : ∃ e, calculate_ema (v :: rest) p = some e := ⟨_, rfl⟩
      rw [he]
      by_cases h0 : e = 0 <;> simp [pureDiff, he, h0]

/-! # Claim theorems -/

/-- Claim C2: on a history with pairwise-distinct dates, `upsert_history`
replaces the candle at the new candle's date in place (preserving its
position) when one exists and otherwise appends at the end; every candle
with a different date stays unchanged at its original position, and the
result holds exactly one candle with the new date. -/
theorem upsert_history_upsert_spec (S : List Candle) (c : Candle)
    (hnd : (S.map Candle.date).Nodup) :
    (∀ i (hi : i < S.length), S[i].date ≠ c.date →
        (upsert_history S c)[i]? = some S[i])
    ∧ (upsert_history S c).countP (fun r => r.date == c.date) = 1
    ∧ (∀ i (hi : i < S.length), S[i].date = c.date →
        upsert_history S c = S.set i c)
    ∧ ((∀ r ∈ S, r.date ≠ c.date) → upsert_history S c = S ++ [c]) :=
  ⟨upsert_getElem?_of_date_ne S c, upsert_countP_date S c hnd,
    upsert_set_of_date_eq S c hnd, upsert_append_of_date_not_mem S c⟩

/-- Witness for C2 at a concrete two-candle history and a fresh-dated
candle: there is exactly one candle carrying the new date afterwards. -/
theorem upsert_history_upsert_spec_witness :
    (upsert_history twoDayHistory (mkCandle "2024-01-03" (some 120) none)).countP
      (fun r => r.date == (mkCandle "2024-01-03" (some 120) none).date) = 1 :=
  (upsert_history_upsert_spec twoDayHistory (mkCandle "2024-01-03" (some 120) none)
    (by decide)).2.1

/-- Claim C3: `upsert_history` is idempotent — applying the same candle
twice yields the same sequence as applying it once, for every history. -/
theorem upsert_history_idempotent (S : List Candle) (c : Candle) :
    upsert_history (upsert_history S c) c = upsert_history S c := by
  induction S with
  | nil => simp [upsert_history]
  | cons r rest ih =>
      by_cases h : r.date = c.date
      · simp [upsert_history, h]
      · simp only [upsert_history, if_neg h]
        simp [upsert_history, if_neg h, ih]

/-- Claim C4: `calculate_rsi` at period 14 implements Wilder's RSI as
the spec words it (`rsi_spec`): no value for fewer than 15 prices,
simple-mean seed over the first 14 one-step differences, Wilder
smoothing to the end, `100.0` on zero final average loss, otherwise
`100 - 100/(1 + RS)` rounded to 2 decimals. -/
theorem calculate_rsi_matches_wilder_spec (prices : List ℚ) :
    calculate_rsi prices 14 = rsi_spec prices 14
    ∧ (prices.length < 15 → calculate_rsi prices 14 = none) := by
  constructor
  · rw [calculate_rsi_char, rsi_spec_char]
  · intro hlen
    rw [calculate_rsi_char]
    simp [hlen]

/-- Witness for C4 at a concrete 3-price sequence (too short: no value). -/
theorem calculate_rsi_matches_wilder_spec_witness :
    calculate_rsi [1, 2, 3] 14 = rsi_spec [1, 2, 3] 14
    ∧ calculate_rsi [1, 2, 3] 14 = none := by
  have h := calculate_rsi_matches_wilder_spec [1, 2, 3]
  exact ⟨h.1, h.2 (by simp)⟩

/-- Claim C7: whenever `calculate_rsi` returns a value, that value lies
in the closed interval `[0, 100]`. -/
theorem calculate_rsi_bounded (prices : List ℚ) (r : ℚ)
    (h : calculate_rsi prices 14 = some r) : 0 ≤ r ∧ r ≤ 100 := by
  rw [calculate_rsi_char] at h
  by_cases hlen : prices.length < 14 + 1
  · rw [if_pos hlen] at h; exact absurd h (by simp)
  · rw [if_neg hlen] at h
    have hg := finalGain_nonneg prices 14 (by norm_num)
    have hl := finalLoss_nonneg prices 14 (by norm_num)
    by_cases hz : finalLoss prices 14 = 0
    · rw [if_pos hz] at h
      have : r = 100 := by simpa using h.symm
      rw [this]
      norm_num
    · rw [if_neg hz] at h
      have hlpos : 0 < finalLoss prices 14 := lt_of_le_of_ne hl (Ne.symm hz)
      have hrs : 0 ≤ finalGain prices 14 / finalLoss prices 14 :=
        div_nonneg hg hl
      have hden : (0 : ℚ) < 1 + finalGain prices 14 / finalLoss prices 14 := by
        linarith
      have hfrac_pos : 0 < 100 / (1 + finalGain prices 14 / finalLoss prices 14) :=
        div_pos (by norm_num) hden
      have hfrac_le : 100 / (1 + finalGain prices 14 / finalLoss prices 14) ≤ 100 := by
        rw [div_le_iff₀ hden]
        nlinarith
      have hx0 : 0 ≤ 100 - 100 / (1 + finalGain prices 14 / finalLoss prices 14) := by
        linarith
      have hx1 : 100 - 100 / (1 + finalGain prices 14 / finalLoss prices 14) < 100 := by
        linarith
      have hb := pyRound2_bounds _ hx0 hx1
      have hr : r = pyRound
          (100 - 100 / (1 + finalGain prices 14 / finalLoss prices 14)) 2 := by
        simpa using h.symm
      rw [hr]
      exact hb

/-- Witness for C7 at a strictly rising 15-price sequence: the RSI is
100, inside `[0, 100]`. -/
theorem calculate_rsi_bounded_witness :
    0 ≤ (100 : ℚ) ∧ (100 : ℚ) ≤ 100 :=
  calculate_rsi_bounded [1, 2, 3, 4, 5, 6, 7, 8, 9, 10, 11, 12, 13, 14, 15] 100
    (by norm_num [calculate_rsi, gainsLosses, wilderLoop, List.zip, List.zipWith,
      List.take, List.drop])

/-! ## Retry lemmas -/

theorem retryStep_ok {E A : Type} (m attempt : ℕ) (b : ℚ) (a : A)
    (rest : RetryTrace E A) :
    retryStep m attempt b (.ok a) rest = ⟨.ok (some a), [], 1⟩ := rfl

theorem retryStep_error_last {E A : Type} (m attempt : ℕ) (b : ℚ) (e : E)
    (rest : RetryTrace E A) (h : attempt = m - 1) :
    retryStep m attempt b (.error e) rest = ⟨.error e, [], 1⟩ := by
  simp [retryStep, h]

theorem retryStep_error_cont {E A : Type} (m attempt : ℕ) (b : ℚ) (e : E)
    (rest : RetryTrace E A) (h : attempt ≠ m - 1) :
    retryStep m attempt b (.error e) rest =
      ⟨rest.result, b * 2 ^ attempt :: rest.sleeps, rest.calls + 1⟩ := by
  simp [retryStep, h]

theorem retryLoop_calls_le {E A : Type} (f : ℕ → Except E A) (m : ℕ) (b : ℚ) :
    ∀ attempt, (retryLoop f m b attempt).calls ≤ m - attempt := by
  suffices h : ∀ fuel attempt, m - attempt ≤ fuel →
      (retryLoop f m b attempt).calls ≤ m - attempt by
    intro attempt; exact h (m - attempt) attempt le_rfl
  intro fuel
  induction fuel with
  | zero =>
      intro attempt hle
      rw [retryLoop, dif_neg (by omega)]
      simp
  | succ fuel ih =>
      intro attempt hle
      rw [retryLoop]
      by_cases hlt : attempt < m
      · rw [dif_pos hlt]
        cases hf : f attempt with
        | ok a => rw [retryStep_ok]; simp; omega
        | error e =>
            by_cases hlast : attempt = m - 1
            · rw [retryStep_error_last _ _ _ _ _ hlast]; simp; omega
            · rw [retryStep_error_cont _ _ _ _ _ hlast]
              have := ih (attempt + 1) (by omega)
              simp only []
              omega
      · rw [dif_neg hlt]; simp

theorem retryLoop_success {E A : Type} (f : ℕ → Except E A) (m : ℕ) (b : ℚ)
    (a : A) :
    ∀ k attempt, attempt + k < m →
      (∀ i, i < k → ∃ e, f (attempt + i) = .error e) →
      f (attempt + k) = .ok a →
      retryLoop f m b attempt =
        ⟨.ok (some a), (List.range k).map (fun j => b * 2 ^ (attempt + j)), k + 1⟩ := by
  intro k
  induction k with
  | zero =>
      intro attempt hlt _ hok
      rw [retryLoop, dif_pos (by omega),
        show f attempt = .ok a from by simpa using hok, retryStep_ok]
      simp
  | succ k ih =>
      intro attempt hlt hfail hok
      obtain ⟨e, he⟩ : ∃ e, f attempt = .error e := by
        simpa using hfail 0 (Nat.succ_pos k)
      rw [retryLoop, dif_pos (by omega), he,
        retryStep_error_cont _ _ _ _ _ (by omega)]
      rw [ih (attempt + 1) (by omega)
        (fun i hi => by
          have h2 := hfail (i + 1) (by omega)
          have h3 : attempt + (i + 1) = attempt + 1 + i := by omega
          rw [h3] at h2
          exact h2)
        (by
          have harr : attempt + 1 + k = attempt + (k + 1) := by omega
          rw [harr]; exact hok)]
      have hsl : (List.range (k + 1)).map (fun j => b * 2 ^ (attempt + j))
          = b * 2 ^ attempt :: (List.range k).map (fun j => b * 2 ^ (attempt + 1 + j)) := by
        rw [List.range_succ_eq_map, List.map_cons, List.map_map]
        congr 1
        refine List.map_congr_left (fun j _ => ?_)
        have h1 : attempt + Nat.succ j = attempt + 1 + j := by omega
        simp only [Function.comp_apply, h1]
      rw [hsl]

theorem retryLoop_all_fail {E A : Type} (f : ℕ → Except E A) (m : ℕ) (b : ℚ) :
    ∀ attempt, attempt < m →
      (∀ i, attempt ≤ i → i < m → ∃ e, f i = .error e) →
      ∃ e, f (m - 1) = .error e ∧ (retryLoop f m b attempt).result = .error e := by
  suffices h : ∀ fuel attempt, m - attempt ≤ fuel → attempt < m →
      (∀ i, attempt ≤ i → i < m → ∃ e, f i = .error e) →
      ∃ e, f (m - 1) = .error e ∧ (retryLoop f m b attempt).result = .error e by
    intro attempt; exact h (m - attempt) attempt le_rfl
  intro fuel
  induction fuel with
  | zero => intro attempt hle hlt; omega
  | succ fuel ih =>
      intro attempt _hle hlt hfail
      obtain ⟨e, he⟩ := hfail attempt le_rfl hlt
      by_cases hlast : attempt = m - 1
      · refine ⟨e, hlast ▸ he, ?_⟩
        rw [retryLoop, dif_pos hlt, he, retryStep_error_last _ _ _ _ _ hlast]
      · obtain ⟨e', he', hres⟩ := ih (attempt + 1) (by omega) (by omega)
          (fun i hi hi' => hfail i (by omega) hi')
        refine ⟨e', he', ?_⟩
        rw [retryLoop, dif_pos hlt, he, retryStep_error_cont _ _ _ _ _ hlast]
        exact hres

/-- Claim C5: `retry_on_failure` with `max_retries = m` and
`base_delay = b` calls the wrapped function at most `m` times; when the
call succeeds after `k` prior failures (`k < m`) its value is returned
after exactly `k` retries, having slept `b * 2 ^ i` after the `i`-th
failed attempt; and when all `m` attempts fail, the final attempt's
exception propagates to the caller. -/
theorem retry_on_failure_spec {E A : Type} (f : ℕ → Except E A) (m : ℕ) (b : ℚ) :
    (retry_on_failure f m b).calls ≤ m
    ∧ (∀ (k : ℕ) (a : A), k < m → (∀ i, i < k → ∃ e, f i = .error e) →
        f k = .ok a →
        retry_on_failure f m b =
          ⟨.ok (some a), (List.range k).map (fun i => b * 2 ^ i), k + 1⟩)
    ∧ (0 < m → (∀ i, i < m → ∃ e, f i = .error e) →
        ∃ e, f (m - 1) = .error e ∧ (retry_on_failure f m b).result = .error e) := by
  refine ⟨?_, ?_, ?_⟩
  · simpa using retryLoop_calls_le f m b 0
  · intro k a hk hfail hok
    have := retryLoop_success f m b a k 0 (by omega)
      (fun i hi => by simpa using hfail i hi) (by simpa using hok)
    simpa using this
  · intro hm hfail
    exact retryLoop_all_fail f m b 0 hm (fun i _ hi => hfail i hi)

/-- Witness for C5: a call failing twice then succeeding, with
`max_retries = 4` and `base_delay = 1`, returns the success value after
exactly 2 retries (3 calls) sleeping 1 then 2 time-units. -/
theorem retry_on_failure_spec_witness :
    retry_on_failure
        (fun i => if i < 2 then Except.error "boom" else Except.ok (42 : ℕ)) 4 1 =
      ⟨Except.ok (some 42), [1, 2], 3⟩ := by
  have h := (retry_on_failure_spec
      (fun i => if i < 2 then Except.error "boom" else Except.ok (42 : ℕ)) 4 1).2.1
      2 42 (by omega)
      (fun i hi => ⟨"boom", by simp [hi]⟩)
      (by simp)
  rw [h]
  simp [List.range_succ]

/-! ## Concurrent runner lemmas -/

theorem parallel_process_eq_filterMap {α β : Type} (f : α → Except PyErr (Option β))
    (order : List α) :
    parallel_process f order = order.filterMap (itemResult f) := by
  suffices h : ∀ (l : List α) (acc : List β),
      l.foldl
        (fun results fut =>
          match f fut with
          | .ok (some r) => results ++ [r]
          | .ok none => results
          | .error _ => results)
        acc = acc ++ l.filterMap (itemResult f) by
    simpa [parallel_process] using h order []
  intro l
  induction l with
  | nil => intro acc; simp
  | cons x xs ih =>
      intro acc
      rw [List.foldl_cons, List.filterMap_cons]
      cases hfx : f x with
      | error e => simp [itemResult, hfx, ih]
      | ok o =>
          cases o with
          | none => simp [itemResult, hfx, ih]
          | some v => simp [itemResult, hfx, ih]

theorem length_filterMap_eq_countP {α β : Type} (g : α → Option β) (l : List α) :
    (l.filterMap g).length = l.countP (fun a => (g a).isSome) := by
  induction l with
  | nil => simp
  | cons x xs ih =>
      rw [List.filterMap_cons, List.countP_cons]
      cases h : g x with
      | none => simp [h, ih]
      | some v => simp [h, ih]

/-- Claim C6: `parallel_process` applies the function once per item; an
item whose application raises is excluded from the returned results and
neither aborts the batch nor changes any other item's outcome — whatever
the completion order, the number of results equals the number of items
whose application returns a non-null value; in particular, with 10 items
of which exactly one raises and the other nine return non-null values,
exactly 9 results come back. -/
theorem parallel_process_fault_isolation {α β : Type}
    (f : α → Except PyErr (Option β)) (items order : List α)
    (hperm : order.Perm items) :
    (parallel_process f order).length
        = items.countP (fun it => (itemResult f it).isSome)
    ∧ (items.length = 10 →
        items.countP (fun it => itemRaises f it) = 1 →
        items.countP (fun it => (itemResult f it).isSome) = 9 →
        (parallel_process f order).length = 9) := by
  have hlen : (parallel_process f order).length
      = items.countP (fun it => (itemResult f it).isSome) := by
    rw [parallel_process_eq_filterMap, length_filterMap_eq_countP]
    exact hperm.countP_eq _
  exact ⟨hlen, fun _ _ h9 => hlen.trans h9⟩

/-- Witness for C6: ten items completing in reversed order, item 4
always raising, the rest returning their own value — exactly 9 results. -/
theorem parallel_process_fault_isolation_witness :
    (parallel_process
        (fun n => if n = 4 then Except.error PyErr.typeError else Except.ok (some n))
        ((List.range 10).reverse)).length = 9 :=
  (parallel_process_fault_isolation
      (fun n => if n = 4 then Except.error PyErr.typeError else Except.ok (some n))
      (List.range 10) ((List.range 10).reverse)
      ((List.range 10).reverse_perm)).2
    (by decide) (by decide) (by decide)

/-- Claim C9: `parallel_process` also drops items that complete
successfully with a null result — in any completion order the returned
list is, up to ordering, exactly the non-null values produced over the
submitted items, and is therefore no longer than the count of items that
did not raise. -/
theorem parallel_process_drops_none {α β : Type}
    (f : α → Except PyErr (Option β)) (items order : List α)
    (hperm : order.Perm items) :
    (parallel_process f order).Perm (items.filterMap (itemResult f))
    ∧ (parallel_process f order).length
        ≤ items.countP (fun it => !(itemRaises f it)) := by
  constructor
  · rw [parallel_process_eq_filterMap]
    exact hperm.filterMap (itemResult f)
  · rw [parallel_process_eq_filterMap, length_filterMap_eq_countP,
      hperm.countP_eq _]
    refine List.countP_mono_left (fun it _ hsome => ?_)
    simp only [itemResult, itemRaises] at hsome ⊢
    cases hfit : f it with
    | error e => rw [hfit] at hsome; simp at hsome
    | ok o => simp

/-- Witness for C9: item 4 returns null and is dropped; the other nine
values are returned up to completion order. -/
theorem parallel_process_drops_none_witness :
    (parallel_process
        (fun n => if n = 4 then Except.ok none else Except.ok (some n))
        ((List.range 10).reverse)).Perm
      ((List.range 10).filterMap
        (itemResult (fun n => if n = 4 then Except.ok none else Except.ok (some n)))) :=
  (parallel_process_drops_none
      (fun n => if n = 4 then Except.ok none else Except.ok (some n))
      (List.range 10) ((List.range 10).reverse)
      ((List.range 10).reverse_perm)).1

/-- Claim C8: indicator computation is a pure read of the trailing
window — the state-passing embedding hands back the history list exactly
as received (same length, same record at every position, derived fields
included), while returning the computed indicator values. -/
theorem calculate_and_update_indicators_pure (history : List Candle) :
    (calculate_and_update_indicators_state history).1 = history
    ∧ (calculate_and_update_indicators_state history).1.length = history.length
    ∧ (∀ i : ℕ, (calculate_and_update_indicators_state history).1[i]? = history[i]?)
    ∧ (calculate_and_update_indicators_state history).2
        = calculate_and_update_indicators history :=
  ⟨rfl, rfl, fun _ => rfl, rfl⟩

theorem getLast?_exists_of_ne_nil (vals : List ℚ) (hne : vals ≠ []) :
    ∃ cp, vals.getLast? = some cp := by
  cases h : vals.getLast? with
  | some c => exact ⟨c, rfl⟩
  | none => exact absurd (List.getLast?_eq_none_iff.mp h) hne

/-- Claim C1 counterexample: on a 2-observation history — a trailing
window far shorter than 14 — the shared indicator computation returns a
null RSI but a NON-null `ema20_diff` (the code computes every EMA over
whatever non-empty window it has, with no per-period length guard). -/
theorem indicators_small_window_counterexample :
    (calculate_and_update_indicators twoDayHistory).map Indicators.rsi
        = Except.ok none
    ∧ (calculate_and_update_indicators twoDayHistory).map Indicators.ema20_diff
        = Except.ok (some (224 / 25))
    ∧ (some (224 / 25) : Option ℚ) ≠ none
    ∧ twoDayHistory.length = 2 := by
  have h := calc_ok_allsome twoDayHistory [100, 110] 110 rfl rfl
  have hrsi : calculate_rsi [100, 110] 14 = none :=
    (calculate_rsi_none_iff _).mpr (by simp)
  have hema : calculate_ema [100, 110] 20 = some (2019047619 / 20000000) := by
    norm_num [calculate_ema, List.foldl, pyRound, round_half_even]
  have hpd : pureDiff 110 [100, 110] 20 = some (224 / 25) := by
    norm_num [pureDiff, hema, pyRound, round_half_even]
  refine ⟨?_, ?_, by simp, rfl⟩
  · rw [h]
    simp [Except.map, hrsi]
  · rw [h]
    simp [Except.map, hpd]

/-- Claim C1 (amended): on a trailing window with fewer than 15
observations (all closes non-null) the RSI is null — but the
EMA-deviation fields are NOT governed by the window length: each EMA is
computed over any non-empty window regardless of its period, and its
deviation field is null exactly when the computed EMA value is zero. -/
theorem indicators_small_window_amended (history : List Candle)
    (vals : List ℚ)
    (hcl : (lastN 250 history).map Candle.close = vals.map some)
    (hne : vals ≠ []) :
    ∃ ind, calculate_and_update_indicators history = .ok ind
      ∧ (ind.rsi = none ↔ vals.length < 15)
      ∧ (ind.ema20_diff = none ↔ calculate_ema vals 20 = some 0)
      ∧ (ind.ema50_diff = none ↔ calculate_ema vals 50 = some 0)
      ∧ (ind.ema120_diff = none ↔ calculate_ema vals 120 = some 0)
      ∧ (ind.ema200_diff = none ↔ calculate_ema vals 200 = some 0) := by
  obtain ⟨cp, hcp⟩ := getLast?_exists_of_ne_nil vals hne
  refine ⟨_, calc_ok_allsome history vals cp hcl hcp,
    calculate_rsi_none_iff vals,
    pureDiff_none_iff cp vals 20 hne, pureDiff_none_iff cp vals 50 hne,
    pureDiff_none_iff cp vals 120 hne, pureDiff_none_iff cp vals 200 hne⟩

/-- Witness for the amended C1 at the concrete 2-observation history. -/
theorem indicators_small_window_amended_witness :
    ∃ ind, calculate_and_update_indicators twoDayHistory = .ok ind
      ∧ (ind.rsi = none ↔ ([100, 110] : List ℚ).length < 15)
      ∧ (ind.ema20_diff = none ↔ calculate_ema [100, 110] 20 = some 0)
      ∧ (ind.ema50_diff = none ↔ calculate_ema [100, 110] 50 = some 0)
      ∧ (ind.ema120_diff = none ↔ calculate_ema [100, 110] 120 = some 0)
      ∧ (ind.ema200_diff = none ↔ calculate_ema [100, 110] 200 = some 0) :=
  indicators_small_window_amended twoDayHistory [100, 110] rfl (by simp)

/-- Claim C10: the shared indicator computation is total exactly on
non-empty histories whose trailing 250 records all carry non-null
closes — there it returns an indicator dictionary; on an empty history
it raises `IndexError` (reading `closes[-1]`), and on a trailing window
containing a null close it raises `TypeError` (arithmetic on `None`),
rather than returning null indicators. -/
theorem calculate_and_update_indicators_totality (history : List Candle) :
    ((history ≠ [] ∧ ∀ x ∈ (lastN 250 history).map Candle.close, x ≠ none) →
        ∃ ind, calculate_and_update_indicators history = .ok ind)
    ∧ (history = [] →
        calculate_and_update_indicators history = .error PyErr.indexError)
    ∧ ((history ≠ [] ∧ none ∈ (lastN 250 history).map Candle.close) →
        calculate_and_update_indicators history = .error PyErr.typeError) := by
  refine ⟨?_, ?_, ?_⟩
  · rintro ⟨hne, hall⟩
    obtain ⟨vals, hv⟩ := exists_map_some _ hall
    have hvne : vals ≠ [] := by
      intro hnil
      subst hnil
      simp only [List.map_nil] at hv
      exact lastN_ne_nil 250 (by norm_num) history hne (List.map_eq_nil_iff.mp hv)
    obtain ⟨cp, hcp⟩ := getLast?_exists_of_ne_nil vals hvne
    exact ⟨_, calc_ok_allsome history vals cp hv hcp⟩
  · rintro rfl
    rfl
  · rintro ⟨_, hmem⟩
    exact calc_err_of_none history hmem

/-- Witness for C10 at the concrete 2-observation history (non-empty,
all closes non-null): the computation returns an indicator dictionary. -/
theorem calculate_and_update_indicators_totality_witness :
    ∃ ind, calculate_and_update_indicators twoDayHistory = .ok ind :=
  (calculate_and_update_indicators_totality twoDayHistory).1
    ⟨by simp [twoDayHistory], by decide⟩

end MCV
